import Mathlib

/-!
Verification development for the sliding-window rate limiter in
`backend/app/rate_limiter.py`.

Timestamps (Python floats from `time.time()`) are modelled as rationals.
The in-memory fallback store (`_memory_store`, a `defaultdict(list)`) is
modelled as an association list from keys to timestamp lists; the Redis
sorted set for one key is modelled as a `Finset ℚ` (ZADD uses the timestamp
itself as the member, so duplicates collapse), together with the key's
expiry value.
-/

namespace Rapster

/-- Prune one key's timestamp log to the trailing window: mirrors the list
comprehension `[t for t in timestamps if current_time - t < window_seconds]`
used both in `_check_memory_limit` and `_cleanup_memory_store`. -/
def pruneL (now w : ℚ) (l : List ℚ) : List ℚ :=
  l.filter fun t => decide (now - t < w)

/-- Association-list lookup with the `defaultdict(list)` default `[]`. -/
def lookupD : List (String × List ℚ) → String → List ℚ
  | [], _ => []
  | p :: rest, k => if p.1 = k then p.2 else lookupD rest k

/-- Dict assignment `_memory_store[key] = l`: replace the entry if the key is
present, otherwise add it. -/
def setK : List (String × List ℚ) → String → List ℚ → List (String × List ℚ)
  | [], k, l => [(k, l)]
  | p :: rest, k, l => if p.1 = k then (k, l) :: rest else p :: setK rest k l

/-- Whether the store has an entry for the key (`key in _memory_store`). -/
def hasKeyB (s : List (String × List ℚ)) (k : String) : Bool :=
  s.any fun p => p.1 = k

/-- Body of `_cleanup_memory_store`: prune every key's list to the current
window, then delete the keys whose list became empty. -/
def cleanupStore (now w : ℚ) (s : List (String × List ℚ)) : List (String × List ℚ) :=
  ((s.map fun p => (p.1, pruneL now w p.2)).filter fun p => !p.2.isEmpty)

/-- The mutable state touched by the memory path: the process-wide
`_memory_store` and the limiter's `_last_cleanup` field. -/
structure MemState where
  store : List (String × List ℚ)
  lastCleanup : ℚ
deriving DecidableEq

/-- Gate of `_cleanup_memory_store`: the sweep runs only when
`current_time - _last_cleanup > _cleanup_interval`, and then records the
sweep time in `_last_cleanup`. -/
def cleanupMemoryStore (w interval now : ℚ) (s : MemState) : MemState :=
  if now - s.lastCleanup > interval then ⟨cleanupStore now w s.store, now⟩ else s

/-- Body of `AsyncRateLimiter._check_memory_limit`: amortized sweep, prune this key's
log, deny without appending when the pruned length already reaches
`max_requests`, otherwise append `current_time` and allow. -/
def checkMemoryLimit (m : ℕ) (w interval : ℚ) (key : String) (now : ℚ)
    (s : MemState) : Bool × MemState :=
  let s1 := cleanupMemoryStore w interval now s
  let pruned := pruneL now w (lookupD s1.store key)
  if m ≤ pruned.length then (true, ⟨setK s1.store key pruned, s1.lastCleanup⟩)
  else (false, ⟨setK s1.store key (pruned ++ [now]), s1.lastCleanup⟩)

/-- Run a sequence of memory-path checks for one key, collecting the
`limited` decisions. -/
def runMemChecks (m : ℕ) (w interval : ℚ) (key : String) :
    List ℚ → MemState → List Bool × MemState
  | [], s => ([], s)
  | t :: ts, s =>
    let r := checkMemoryLimit m w interval key t s
    let rr := runMemChecks m w interval key ts r.2
    (r.1 :: rr.1, rr.2)

/-- One key's Redis state: the sorted set of recorded timestamps (member =
score = the timestamp string, hence a set) and the last expiry applied. -/
structure ZKey where
  entries : Finset ℚ
  ttl : ℚ
deriving DecidableEq

/-- Semantics of `ZREMRANGEBYSCORE key lo hi`: remove the members whose score lies in the
inclusive range `[lo, hi]`. -/
def zremrangebyscore (lo hi : ℚ) (s : Finset ℚ) : Finset ℚ :=
  s.filter fun t => ¬(lo ≤ t ∧ t ≤ hi)

/-- The Lua script in `_check_redis_limit`: remove scores in
`[0, window_start]`, ZADD the current time, return ZCARD, set EXPIRE. -/
def luaRateLimit (windowStart now expiry : ℚ) (z : ZKey) : ℕ × ZKey :=
  let e1 := zremrangebyscore 0 windowStart z.entries
  let e2 := insert now e1
  (e2.card, ⟨e2, expiry⟩)

/-- Wrapper of `_check_redis_limit` around the script: `window_start = now - window`,
`expiry = window + 10`, and the caller is limited iff the returned count is
strictly greater than `max_requests`. -/
def checkRedisOnce (m : ℕ) (w now : ℚ) (z : ZKey) : Bool × ZKey :=
  let r := luaRateLimit (now - w) now (w + 10) z
  (decide (m < r.1), r.2)

/-- Run a sequence of Redis-path checks for one key. -/
def runRedisChecks (m : ℕ) (w : ℚ) : List ℚ → ZKey → List Bool × ZKey
  | [], z => ([], z)
  | t :: ts, z =>
    let r := checkRedisOnce m w t z
    let rr := runRedisChecks m w ts r.2
    (r.1 :: rr.1, rr.2)

/-- Modelled from the spec words of claim C4, for comparison with
`luaRateLimit`: the same atomic unit but discarding exactly the entries
strictly older than `window_start`. -/
def luaRateLimitSpec (windowStart now expiry : ℚ) (z : ZKey) : ℕ × ZKey :=
  let e1 := z.entries.filter fun t => ¬ t < windowStart
  let e2 := insert now e1
  (e2.card, ⟨e2, expiry⟩)

/-- Client-IP resolution shared by both dependencies: first comma-separated
element of `X-Forwarded-For` (Python truthiness: an absent or empty header
falls through), else `request.client.host`, else the literal `unknown`. -/
def resolveClientIp (forwardedFor clientHost : Option String) : String :=
  match forwardedFor with
  | some ff =>
    if ff = "" then
      match clientHost with
      | some h => h
      | none => "unknown"
    else ((ff.splitOn (",")).headD ("")).trim
  | none =>
    match clientHost with
    | some h => h
    | none => "unknown"

/-- In `check_rate_limit` the store key is `f"rate_limit:{client_id}"`. -/
def rateLimitKey (clientId : String) : String := "rate_limit:" ++ clientId

/-- The `client_id` passed by `_rate_limit_dependency` (the IP-only
dependency): the resolved client IP, with no scope segment. -/
def ipDepClientId (ff host : Option String) : String := resolveClientIp ff host

/-- The `client_id` passed by `_user_rate_limit_dependency`:
`f"user:{current_user.id}"` when authenticated, else `f"ip:{client_ip}"`. -/
def userDepClientId (userId ff host : Option String) : String :=
  match userId with
  | some uid => "user:" ++ uid
  | none => "ip:" ++ resolveClientIp ff host

/-- Outcome of the distributed part of one `_check_redis_limit` call:
`get_redis_client` returned `None`, the Lua eval returned a count, or the
call raised an exception. -/
inductive RedisOutcome
  | noClient
  | ok (count : ℕ)
  | err
deriving DecidableEq

/-- Body of `_check_redis_limit`, dispatching on the distributed outcome: with no
client or on an exception the memory fallback decides; with a returned
count the caller is limited iff `count > max_requests`. The last flag
records whether the except-branch ran (Redis marked unhealthy, recovery
task created). Every outcome, including `err`, ends in a boolean. -/
def checkRedisLimitDispatch (m : ℕ) (w interval : ℚ) (key : String) (now : ℚ)
    (o : RedisOutcome) (s : MemState) : Bool × MemState × Bool :=
  match o with
  | RedisOutcome.noClient =>
    let r := checkMemoryLimit m w interval key now s
    (r.1, r.2, false)
  | RedisOutcome.ok c => (decide (m < c), s, false)
  | RedisOutcome.err =>
    let r := checkMemoryLimit m w interval key now s
    (r.1, r.2, true)

/-- The HTTP 429 rejection raised by `_rate_limit_dependency`. -/
structure HTTPErrorM where
  statusCode : ℕ
  detail : String
  retryAfter : ℚ
deriving DecidableEq

/-- Body of `_rate_limit_dependency`: build the key from the resolved client IP,
evaluate the limit, and raise 429 with `Retry-After = window_seconds`
exactly when limited. -/
def rateLimitDependency (m : ℕ) (w interval : ℚ) (clientIp : String)
    (now : ℚ) (o : RedisOutcome) (s : MemState) :
    Except HTTPErrorM Unit × MemState :=
  let key := rateLimitKey clientIp
  let r := checkRedisLimitDispatch m w interval key now o s
  if r.1 then
    (Except.error ⟨429, "Rate limit exceeded. Please try again later.", w⟩,
      r.2.1)
  else (Except.ok (), r.2.1)

/-- Timed events affecting `_redis_healthy`: an evaluation (with an oracle
saying whether the distributed call would fail if attempted) and the firing
of a scheduled `_schedule_redis_recovery` task. -/
inductive REvent
  | check (t : ℚ) (fails : Bool)
  | recover (t : ℚ)
deriving DecidableEq

def eventTime : REvent → ℚ
  | REvent.check t _ => t
  | REvent.recover t => t

/-- The `_redis_healthy` flag together with the pending recovery task's fire time. -/
structure Breaker where
  healthy : Bool
  pending : Option ℚ
deriving DecidableEq

/-- The `asyncio.sleep(30)` delay in `_schedule_redis_recovery`. -/
def recoveryDelay : ℚ := 30

/-- Breaker transition: a check while healthy attempts the distributed call
and, on failure, marks unhealthy and schedules recovery at `t + 30`; a
check while unhealthy changes nothing; a recovery firing resets the flag
(`reset_redis_health`). -/
def stepEvent (s : Breaker) : REvent → Breaker
  | REvent.check t fails =>
    if s.healthy then
      (if fails then ⟨false, some (t + recoveryDelay)⟩ else s)
    else s
  | REvent.recover _ => ⟨true, none⟩

/-- Trace well-formedness: event times are non-decreasing starting from
`tmin`, and a recovery event fires only at the pending task's time. -/
def validFromB : ℚ → Breaker → List REvent → Bool
  | _, _, [] => true
  | tmin, s, e :: es =>
    (decide (tmin ≤ eventTime e) &&
      (match e with
       | REvent.recover t => decide (s.pending = some t)
       | REvent.check _ _ => true)) &&
      validFromB (eventTime e) (stepEvent s e) es

/-- For each check event of a trace, its time paired with whether the
distributed path was attempted (`get_redis_client` hands out a client only
while healthy). -/
def checkAttempts : Breaker → List REvent → List (ℚ × Bool)
  | _, [] => []
  | s, e :: es =>
    (match e with
     | REvent.check t _ => [(t, s.healthy)]
     | REvent.recover _ => []) ++ checkAttempts (stepEvent s e) es

/-- A sample breaker trace: two checks during the outage, the recovery
firing at `t0 + 30 = 30`, then a later check. -/
def traceEx : List REvent :=
  [REvent.check 5 false, REvent.check 29 true, REvent.recover 30,
   REvent.check 31 false]

/-- The `_redis_client` global: `None`, the `False` sentinel stored after a
failed setup, or a live client. -/
inductive RClient
  | unset
  | failed
  | conn
deriving DecidableEq

/-- The module globals read by `get_redis_client`, plus a flag recording
whether any recovery task was ever created. -/
structure RedisGlobal where
  rclient : RClient
  healthy : Bool
  recoveryScheduled : Bool
deriving DecidableEq

/-- Body of `get_redis_client`: return `None` immediately while unhealthy; on first
use a missing `REDIS_URL`, a missing package or a failed connection stores
the `False` sentinel and marks unhealthy (scheduling nothing); otherwise
the client is created and cached. -/
def getRedisClient (hasUrl connectOk : Bool) (g : RedisGlobal) :
    Option Unit × RedisGlobal :=
  if g.healthy then
    match g.rclient with
    | RClient.unset =>
      if hasUrl then
        if connectOk then (some (), ⟨RClient.conn, true, g.recoveryScheduled⟩)
        else (none, ⟨RClient.failed, false, g.recoveryScheduled⟩)
      else (none, ⟨RClient.failed, false, g.recoveryScheduled⟩)
    | RClient.failed => (none, g)
    | RClient.conn => (some (), g)
  else (none, g)

/-- Inputs of one full evaluation: whether a fresh connection would succeed,
whether the Lua call would raise, the count it would return, and the
request's key and time. -/
structure EvalIn where
  connectOk : Bool
  redisFails : Bool
  redisCount : ℕ
  key : String
  now : ℚ
deriving DecidableEq

/-- One `_check_redis_limit` evaluation against the module globals; the
final flag records whether the memory fallback store served the request. -/
def evalOnce (hasUrl : Bool) (m : ℕ) (w interval : ℚ) (e : EvalIn)
    (g : RedisGlobal) (s : MemState) : Bool × RedisGlobal × MemState × Bool :=
  let gc := getRedisClient hasUrl e.connectOk g
  match gc.1 with
  | none =>
    let r := checkMemoryLimit m w interval e.key e.now s
    (r.1, gc.2, r.2, true)
  | some _ =>
    if e.redisFails then
      let r := checkMemoryLimit m w interval e.key e.now s
      (r.1, ⟨gc.2.rclient, false, true⟩, r.2, true)
    else (decide (m < e.redisCount), gc.2, s, false)

/-- A sequence of evaluations, collecting the served-by-memory flags. -/
def runEvals (hasUrl : Bool) (m : ℕ) (w interval : ℚ) :
    List EvalIn → RedisGlobal → MemState → List Bool × RedisGlobal × MemState
  | [], g, s => ([], g, s)
  | e :: es, g, s =>
    let r := evalOnce hasUrl m w interval e g s
    let rr := runEvals hasUrl m w interval es r.2.1 r.2.2.1
    (r.2.2.2 :: rr.1, rr.2)

/-- Python dicts have unique keys; every store reachable from the empty
`defaultdict(list)` satisfies this. -/
def goodStore (s : List (String × List ℚ)) : Prop := (s.map Prod.fst).Nodup

/-! ### Basic lemmas about the store operations -/

theorem pruneL_length_le (now w : ℚ) (l : List ℚ) :
    (pruneL now w l).length ≤ l.length :=
  List.length_filter_le _ l

theorem pruneL_eq_self (now w : ℚ) (l : List ℚ) (h : ∀ t ∈ l, now - t < w) :
    pruneL now w l = l :=
  List.filter_eq_self.mpr fun t ht => decide_eq_true (h t ht)

theorem pruneL_idem (now w : ℚ) (l : List ℚ) :
    pruneL now w (pruneL now w l) = pruneL now w l := by
  simp only [pruneL]
  exact List.filter_eq_self.mpr fun a ha => (List.mem_filter.mp ha).2

theorem mem_of_mem_pruneL {now w : ℚ} {l : List ℚ} {t : ℚ}
    (h : t ∈ pruneL now w l) : t ∈ l ∧ now - t < w := by
  have h' := List.mem_filter.mp h
  exact ⟨h'.1, of_decide_eq_true h'.2⟩

theorem lookupD_eq_nil_of_not_mem_keys {s : List (String × List ℚ)} {k : String}
    (h : k ∉ s.map Prod.fst) : lookupD s k = [] := by
  induction s with
  | nil => rfl
  | cons p rest ih =>
    simp only [List.map_cons, List.mem_cons, not_or] at h
    have hp : ¬ p.1 = k := fun hpk => h.1 hpk.symm
    simp only [lookupD, if_neg hp, ih h.2]

theorem lookupD_setK_self (s : List (String × List ℚ)) (k : String) (l : List ℚ) :
    lookupD (setK s k l) k = l := by
  induction s with
  | nil => simp [setK, lookupD]
  | cons p rest ih =>
    by_cases hp : p.1 = k
    · simp [setK, hp, lookupD]
    · simp [setK, hp, lookupD, ih]

theorem lookupD_setK_ne (s : List (String × List ℚ)) (k k' : String) (l : List ℚ)
    (h : k' ≠ k) : lookupD (setK s k l) k' = lookupD s k' := by
  have h' : ¬ k = k' := fun hk => h hk.symm
  induction s with
  | nil => simp [setK, lookupD, h']
  | cons p rest ih =>
    by_cases hp : p.1 = k
    · have h'' : ¬ p.1 = k' := by rw [hp]; exact h'
      simp [setK, hp, lookupD, h', h'']
    · by_cases hq : p.1 = k'
      · simp [setK, hp, lookupD, hq, h]
      · simp [setK, hp, lookupD, hq, ih]

theorem mem_setK {s : List (String × List ℚ)} {k : String} {l : List ℚ}
    {p : String × List ℚ} (h : p ∈ setK s k l) : p ∈ s ∨ p = (k, l) := by
  induction s with
  | nil => simp [setK] at h; simp [h]
  | cons q rest ih =>
    by_cases hq : q.1 = k
    · simp only [setK, if_pos hq, List.mem_cons] at h
      rcases h with h | h
      · exact Or.inr h
      · exact Or.inl (List.mem_cons_of_mem _ h)
    · simp only [setK, if_neg hq, List.mem_cons] at h
      rcases h with h | h
      · exact Or.inl (h ▸ List.mem_cons_self _ _)
      · rcases ih h with h' | h'
        · exact Or.inl (List.mem_cons_of_mem _ h')
        · exact Or.inr h'

theorem mem_keys_setK {s : List (String × List ℚ)} {k k' : String} {l : List ℚ}
    (h : k' ∈ (setK s k l).map Prod.fst) : k' ∈ s.map Prod.fst ∨ k' = k := by
  rcases List.mem_map.mp h with ⟨p, hp, hfst⟩
  rcases mem_setK hp with h' | h'
  · exact Or.inl (hfst ▸ List.mem_map_of_mem Prod.fst h')
  · subst h'; exact Or.inr hfst.symm

theorem goodStore_setK {s : List (String × List ℚ)} (k : String) (l : List ℚ)
    (h : goodStore s) : goodStore (setK s k l) := by
  induction s with
  | nil =>
    simp only [goodStore, setK, List.map_cons, List.map_nil]
    exact List.nodup_singleton k
  | cons p rest ih =>
    have hnd : p.1 ∉ rest.map Prod.fst ∧ (rest.map Prod.fst).Nodup :=
      List.nodup_cons.mp (by simpa only [goodStore, List.map_cons] using h)
    by_cases hp : p.1 = k
    · simp only [goodStore, setK, if_pos hp, List.map_cons]
      exact List.nodup_cons.mpr ⟨hp ▸ hnd.1, hnd.2⟩
    · simp only [goodStore, setK, if_neg hp, List.map_cons]
      refine List.nodup_cons.mpr ⟨fun hmem => ?_, ih hnd.2⟩
      rcases mem_keys_setK hmem with hmm | hmm
      · exact hnd.1 hmm
      · exact hp hmm

theorem mem_cleanupStore {now w : ℚ} {s : List (String × List ℚ)}
    {p : String × List ℚ} (h : p ∈ cleanupStore now w s) :
    p.2 ≠ [] ∧ ∃ l0, (p.1, l0) ∈ s ∧ p.2 = pruneL now w l0 := by
  have h' := List.mem_filter.mp h
  rcases List.mem_map.mp h'.1 with ⟨q, hq, hfq⟩
  have h1 : q.1 = p.1 := by rw [← hfq]
  have h2 : pruneL now w q.2 = p.2 := by rw [← hfq]
  refine ⟨fun hnil => ?_, q.2, ?_, h2.symm⟩
  · rw [hnil] at h'; simp at h'
  · rw [← h1]; exact hq

theorem keys_cleanupStore_sublist (now w : ℚ) (s : List (String × List ℚ)) :
    ((cleanupStore now w s).map Prod.fst).Sublist (s.map Prod.fst) := by
  have h1 : (cleanupStore now w s).Sublist
      (s.map fun p => (p.1, pruneL now w p.2)) := List.filter_sublist _
  have h2 := h1.map Prod.fst
  have h3 : ((s.map fun p => (p.1, pruneL now w p.2)).map Prod.fst) =
      s.map Prod.fst := by
    rw [List.map_map]; rfl
  exact h3 ▸ h2

theorem goodStore_cleanupStore (now w : ℚ) {s : List (String × List ℚ)}
    (h : goodStore s) : goodStore (cleanupStore now w s) :=
  (keys_cleanupStore_sublist now w s).nodup h

theorem cleanupStore_cons_of_empty (now w : ℚ) (p : String × List ℚ)
    (rest : List (String × List ℚ)) (h : pruneL now w p.2 = []) :
    cleanupStore now w (p :: rest) = cleanupStore now w rest := by
  simp [cleanupStore, List.filter_cons, h]

theorem cleanupStore_cons_of_nonempty (now w : ℚ) (p : String × List ℚ)
    (rest : List (String × List ℚ)) (h : ¬ pruneL now w p.2 = []) :
    cleanupStore now w (p :: rest) =
      (p.1, pruneL now w p.2) :: cleanupStore now w rest := by
  simp [cleanupStore, List.filter_cons, h]

theorem lookupD_cleanupStore (now w : ℚ) {s : List (String × List ℚ)}
    (h : goodStore s) (k : String) :
    lookupD (cleanupStore now w s) k = pruneL now w (lookupD s k) := by
  induction s with
  | nil => rfl
  | cons p rest ih =>
    have hnd : p.1 ∉ rest.map Prod.fst ∧ goodStore rest := by
      simpa [goodStore, List.nodup_cons] using h
    by_cases hp : p.1 = k
    · subst hp
      by_cases hemp : pruneL now w p.2 = []
      · have hk : p.1 ∉ (cleanupStore now w rest).map Prod.fst := fun hmem =>
          hnd.1 ((keys_cleanupStore_sublist now w rest).subset hmem)
        rw [cleanupStore_cons_of_empty now w p rest hemp,
          lookupD_eq_nil_of_not_mem_keys hk]
        simp [lookupD, hemp]
      · rw [cleanupStore_cons_of_nonempty now w p rest hemp]
        simp [lookupD]
    · by_cases hemp : pruneL now w p.2 = []
      · rw [cleanupStore_cons_of_empty now w p rest hemp, ih hnd.2]
        simp [lookupD, hp]
      · rw [cleanupStore_cons_of_nonempty now w p rest hemp]
        simp [lookupD, hp, ih hnd.2]

/-! ### Lemmas about the limiter state transitions -/

theorem goodStore_cleanupMemoryStore (w interval now : ℚ) (s : MemState)
    (h : goodStore s.store) :
    goodStore (cleanupMemoryStore w interval now s).store := by
  unfold cleanupMemoryStore
  split
  · exact goodStore_cleanupStore now w h
  · exact h

theorem lookupD_cleanupMemoryStore (w interval now : ℚ) (s : MemState)
    (k : String) (h : goodStore s.store) :
    lookupD (cleanupMemoryStore w interval now s).store k = lookupD s.store k ∨
    lookupD (cleanupMemoryStore w interval now s).store k =
      pruneL now w (lookupD s.store k) := by
  unfold cleanupMemoryStore
  split
  · exact Or.inr (lookupD_cleanupStore now w h k)
  · exact Or.inl rfl

theorem pruneL_lookupD_cleanupMemoryStore (w interval now : ℚ) (s : MemState)
    (k : String) (h : goodStore s.store) :
    pruneL now w (lookupD (cleanupMemoryStore w interval now s).store k) =
      pruneL now w (lookupD s.store k) := by
  rcases lookupD_cleanupMemoryStore w interval now s k h with h' | h'
  · rw [h']
  · rw [h', pruneL_idem]

/-- Net effect of one `_check_memory_limit` call on the decision and on the
checked key, phrased against the pre-call store (the amortized sweep prunes
with the same `now` and window, so it does not change the pruned view). -/
theorem checkMemoryLimit_spec (m : ℕ) (w interval : ℚ) (key : String) (now : ℚ)
    (s : MemState) (h : goodStore s.store) :
    ((checkMemoryLimit m w interval key now s).1 = true ↔
        m ≤ (pruneL now w (lookupD s.store key)).length) ∧
      ((checkMemoryLimit m w interval key now s).1 = true →
        lookupD (checkMemoryLimit m w interval key now s).2.store key =
          pruneL now w (lookupD s.store key)) ∧
      ((checkMemoryLimit m w interval key now s).1 = false →
        lookupD (checkMemoryLimit m w interval key now s).2.store key =
          pruneL now w (lookupD s.store key) ++ [now]) := by
  simp only [checkMemoryLimit]
  rw [pruneL_lookupD_cleanupMemoryStore w interval now s key h]
  by_cases hc : m ≤ (pruneL now w (lookupD s.store key)).length
  · simp [hc, lookupD_setK_self]
  · simp [hc, lookupD_setK_self]

theorem goodStore_checkMemoryLimit (m : ℕ) (w interval : ℚ) (key : String)
    (now : ℚ) (s : MemState) (h : goodStore s.store) :
    goodStore (checkMemoryLimit m w interval key now s).2.store := by
  have h1 := goodStore_cleanupMemoryStore w interval now s h
  simp only [checkMemoryLimit]
  by_cases hc : m ≤
      (pruneL now w (lookupD (cleanupMemoryStore w interval now s).store key)).length
  · simpa [hc] using goodStore_setK key _ h1
  · simpa [hc] using goodStore_setK key _ h1

/-- Keys other than the checked one are at most pruned, never extended. -/
theorem checkMemoryLimit_frame (m : ℕ) (w interval : ℚ) (key : String) (now : ℚ)
    (s : MemState) (h : goodStore s.store) (k : String) (hk : k ≠ key) :
    lookupD (checkMemoryLimit m w interval key now s).2.store k =
        lookupD s.store k ∨
      lookupD (checkMemoryLimit m w interval key now s).2.store k =
        pruneL now w (lookupD s.store k) := by
  have hs1 := lookupD_cleanupMemoryStore w interval now s k h
  simp only [checkMemoryLimit]
  by_cases hc : m ≤
      (pruneL now w (lookupD (cleanupMemoryStore w interval now s).store key)).length
  · simpa [hc, lookupD_setK_ne _ _ _ _ hk] using hs1
  · simpa [hc, lookupD_setK_ne _ _ _ _ hk] using hs1

theorem lookupD_length_le {st : List (String × List ℚ)} {m : ℕ}
    (h : ∀ p ∈ st, p.2.length ≤ m) (k : String) : (lookupD st k).length ≤ m := by
  induction st with
  | nil => simp [lookupD]
  | cons p rest ih =>
    by_cases hp : p.1 = k
    · simpa [lookupD, hp] using h p (List.mem_cons_self p rest)
    · simp only [lookupD, if_neg hp]
      exact ih fun q hq => h q (List.mem_cons_of_mem p hq)

theorem cleanupMemoryStore_lengths (w interval now : ℚ) (s : MemState) {m : ℕ}
    (h : ∀ p ∈ s.store, p.2.length ≤ m) :
    ∀ p ∈ (cleanupMemoryStore w interval now s).store, p.2.length ≤ m := by
  unfold cleanupMemoryStore
  split
  · intro p hp
    rcases mem_cleanupStore hp with ⟨-, l0, hl0, hpr⟩
    calc p.2.length = (pruneL now w l0).length := by rw [hpr]
      _ ≤ l0.length := pruneL_length_le now w l0
      _ ≤ m := h (p.1, l0) hl0
  · exact h

/-- One memory check keeps every stored list within the policy limit. -/
theorem checkMemoryLimit_lengths (m : ℕ) (w interval : ℚ) (key : String)
    (now : ℚ) (s : MemState) (hinv : ∀ p ∈ s.store, p.2.length ≤ m) :
    ∀ p ∈ (checkMemoryLimit m w interval key now s).2.store, p.2.length ≤ m := by
  have h1 := cleanupMemoryStore_lengths w interval now s hinv
  simp only [checkMemoryLimit]
  by_cases hc : m ≤
      (pruneL now w (lookupD (cleanupMemoryStore w interval now s).store key)).length
  · simp only [if_pos hc]
    intro p hp
    rcases mem_setK hp with hmem | heq
    · exact h1 p hmem
    · rw [heq]
      calc (pruneL now w
            (lookupD (cleanupMemoryStore w interval now s).store key)).length
          ≤ (lookupD (cleanupMemoryStore w interval now s).store key).length :=
            pruneL_length_le _ _ _
        _ ≤ m := lookupD_length_le h1 key
  · simp only [if_neg hc]
    intro p hp
    rcases mem_setK hp with hmem | heq
    · exact h1 p hmem
    · rw [heq]
      have hlt : (pruneL now w
          (lookupD (cleanupMemoryStore w interval now s).store key)).length < m :=
        Nat.lt_of_not_le hc
      simpa [List.length_append] using Nat.succ_le_of_lt hlt

theorem runMemChecks_lengths (m : ℕ) (w interval : ℚ) (key : String)
    (ts : List ℚ) (s : MemState) (hinv : ∀ p ∈ s.store, p.2.length ≤ m) :
    ∀ p ∈ (runMemChecks m w interval key ts s).2.store, p.2.length ≤ m := by
  induction ts generalizing s with
  | nil => simpa [runMemChecks] using hinv
  | cons t ts ih =>
    simp only [runMemChecks]
    exact ih _ (checkMemoryLimit_lengths m w interval key t s hinv)

theorem runMemChecks_append (m : ℕ) (w interval : ℚ) (key : String)
    (l1 l2 : List ℚ) (s : MemState) :
    runMemChecks m w interval key (l1 ++ l2) s =
      ((runMemChecks m w interval key l1 s).1 ++
        (runMemChecks m w interval key l2
          (runMemChecks m w interval key l1 s).2).1,
       (runMemChecks m w interval key l2
          (runMemChecks m w interval key l1 s).2).2) := by
  induction l1 generalizing s with
  | nil => simp [runMemChecks]
  | cons t ts ih => simp [runMemChecks, ih]

/-- A run of memory checks whose times all fit in one window together with
the key's current log, and whose total count stays within the limit, allows
every request and appends every timestamp. -/
theorem runMemChecks_all_allowed (m : ℕ) (w interval : ℚ) (key : String)
    (ts : List ℚ) (s : MemState) (cur : List ℚ)
    (hg : goodStore s.store)
    (hcur : lookupD s.store key = cur)
    (hwin : ∀ t' ∈ ts, ∀ c ∈ cur, t' - c < w)
    (hts : ∀ ta ∈ ts, ∀ tb ∈ ts, ta - tb < w)
    (hlen : cur.length + ts.length ≤ m) :
    (runMemChecks m w interval key ts s).1 = List.replicate ts.length false ∧
      lookupD (runMemChecks m w interval key ts s).2.store key = cur ++ ts ∧
      goodStore (runMemChecks m w interval key ts s).2.store := by
  induction ts generalizing s cur with
  | nil => simpa [runMemChecks] using ⟨hcur, hg⟩
  | cons t ts ih =>
    have hspec := checkMemoryLimit_spec m w interval key t s hg
    have hprune : pruneL t w (lookupD s.store key) = cur := by
      rw [hcur]
      exact pruneL_eq_self t w cur fun c hc =>
        hwin t (List.mem_cons_self t ts) c hc
    simp only [List.length_cons] at hlen
    have hlt : (pruneL t w (lookupD s.store key)).length < m := by
      rw [hprune]; omega
    have hdec : (checkMemoryLimit m w interval key t s).1 = false := by
      cases hb : (checkMemoryLimit m w interval key t s).1 with
      | false => rfl
      | true => exact absurd (hspec.1.mp hb) (Nat.not_le_of_lt hlt)
    have hnext : lookupD (checkMemoryLimit m w interval key t s).2.store key =
        cur ++ [t] := by
      rw [hspec.2.2 hdec, hprune]
    have hg' := goodStore_checkMemoryLimit m w interval key t s hg
    have hrest := ih (checkMemoryLimit m w interval key t s).2 (cur ++ [t]) hg'
      hnext
      (fun t' ht' c hc => by
        rcases List.mem_append.mp hc with hc | hc
        · exact hwin t' (List.mem_cons_of_mem t ht') c hc
        · have hct : c = t := by simpa using hc
          exact hct ▸ hts t' (List.mem_cons_of_mem t ht') t
            (List.mem_cons_self t ts))
      (fun ta hta tb htb =>
        hts ta (List.mem_cons_of_mem t hta) tb (List.mem_cons_of_mem t htb))
      (by simp only [List.length_append, List.length_cons, List.length_nil]
          omega)
    refine ⟨?_, ?_, hrest.2.2⟩
    · simp only [runMemChecks, hdec, hrest.1, List.length_cons,
        List.replicate_succ]
    · simp only [runMemChecks, hrest.2.1, List.append_assoc,
        List.singleton_append]

/-- A memory check at a time whose window still covers the whole stored log
denies once the log has reached the limit. -/
theorem checkMemoryLimit_denies (m : ℕ) (w interval : ℚ) (key : String)
    (now : ℚ) (s : MemState) (hg : goodStore s.store)
    (hwin : ∀ c ∈ lookupD s.store key, now - c < w)
    (hlen : m ≤ (lookupD s.store key).length) :
    (checkMemoryLimit m w interval key now s).1 = true := by
  apply (checkMemoryLimit_spec m w interval key now s hg).1.mpr
  rw [pruneL_eq_self now w _ hwin]
  exact hlen

/-! ### Lemmas about the Redis path -/

theorem zremrangebyscore_eq_self (lo hi : ℚ) (s : Finset ℚ)
    (h : ∀ c ∈ s, ¬(lo ≤ c ∧ c ≤ hi)) : zremrangebyscore lo hi s = s :=
  Finset.filter_true_of_mem h

theorem zremrangebyscore_window (t w : ℚ) (s : Finset ℚ)
    (h : ∀ c ∈ s, t - c < w) : zremrangebyscore 0 (t - w) s = s :=
  zremrangebyscore_eq_self 0 (t - w) s fun c hc hand =>
    absurd hand.2 (not_le.mpr (by linarith [h c hc]))

/-- A run of Redis checks with pairwise-distinct timestamps that all fit in
one window allows every request and records every timestamp. -/
theorem runRedisChecks_all_allowed (m : ℕ) (w : ℚ) (ts : List ℚ) (z : ZKey)
    (done : Finset ℚ)
    (hz : z.entries = done)
    (hwin : ∀ t' ∈ ts, ∀ c ∈ done, t' - c < w)
    (hnew : ∀ t' ∈ ts, t' ∉ done)
    (hts : ∀ ta ∈ ts, ∀ tb ∈ ts, ta - tb < w)
    (htsnd : ts.Nodup)
    (hlen : done.card + ts.length ≤ m) :
    (runRedisChecks m w ts z).1 = List.replicate ts.length false ∧
      (runRedisChecks m w ts z).2.entries = done ∪ ts.toFinset ∧
      (runRedisChecks m w ts z).2.entries.card = done.card + ts.length := by
  induction ts generalizing z done with
  | nil => simp [runRedisChecks, hz]
  | cons t ts ih =>
    simp only [List.length_cons] at hlen
    have hzrem : zremrangebyscore 0 (t - w) z.entries = done := by
      rw [hz]
      exact zremrangebyscore_window t w done fun c hc =>
        hwin t (List.mem_cons_self t ts) c hc
    have htd : t ∉ done := hnew t (List.mem_cons_self t ts)
    have hcard : (insert t done).card = done.card + 1 :=
      Finset.card_insert_of_not_mem htd
    have hstep : checkRedisOnce m w t z =
        (false, ⟨insert t done, w + 10⟩) := by
      simp only [checkRedisOnce, luaRateLimit, hzrem]
      have : ¬ m < (insert t done).card := by rw [hcard]; omega
      simp [this]
    have hndtail : t ∉ ts ∧ ts.Nodup := List.nodup_cons.mp htsnd
    have hrest := ih ⟨insert t done, w + 10⟩ (insert t done) rfl
      (fun t' ht' c hc => by
        rcases Finset.mem_insert.mp hc with hc | hc
        · exact hc ▸ hts t' (List.mem_cons_of_mem t ht') t
            (List.mem_cons_self t ts)
        · exact hwin t' (List.mem_cons_of_mem t ht') c hc)
      (fun t' ht' hmem => by
        rcases Finset.mem_insert.mp hmem with hc | hc
        · exact hndtail.1 (hc ▸ ht')
        · exact hnew t' (List.mem_cons_of_mem t ht') hc)
      (fun ta hta tb htb =>
        hts ta (List.mem_cons_of_mem t hta) tb (List.mem_cons_of_mem t htb))
      hndtail.2
      (by rw [hcard]; omega)
    refine ⟨?_, ?_, ?_⟩
    · simp only [runRedisChecks, hstep, hrest.1, List.length_cons,
        List.replicate_succ]
    · simp only [runRedisChecks, hstep, hrest.2.1, List.toFinset_cons,
        Finset.insert_union, Finset.union_insert]
    · simp only [runRedisChecks, hstep, hrest.2.2, hcard, List.length_cons]
      omega

/-- A Redis check at a fresh timestamp whose window still covers the whole
recorded set denies once the set has reached the limit. -/
theorem checkRedisOnce_denies (m : ℕ) (w now : ℚ) (z : ZKey)
    (hwin : ∀ c ∈ z.entries, now - c < w)
    (hnew : now ∉ z.entries)
    (hlen : m ≤ z.entries.card) :
    (checkRedisOnce m w now z).1 = true := by
  have hzrem : zremrangebyscore 0 (now - w) z.entries = z.entries :=
    zremrangebyscore_window now w z.entries hwin
  have hcard : (insert now z.entries).card = z.entries.card + 1 :=
    Finset.card_insert_of_not_mem hnew
  simp only [checkRedisOnce, luaRateLimit, hzrem]
  have : m < (insert now z.entries).card := by rw [hcard]; omega
  simp [this]

theorem runRedisChecks_append (m : ℕ) (w : ℚ) (l1 l2 : List ℚ) (z : ZKey) :
    runRedisChecks m w (l1 ++ l2) z =
      ((runRedisChecks m w l1 z).1 ++
        (runRedisChecks m w l2 (runRedisChecks m w l1 z).2).1,
       (runRedisChecks m w l2 (runRedisChecks m w l1 z).2).2) := by
  induction l1 generalizing z with
  | nil => simp [runRedisChecks]
  | cons t ts ih => simp [runRedisChecks, ih]

/-! ### Claim theorems -/

/-- C1, counterexample: on the distributed path the claim fails for
coinciding timestamps. With `max_requests = 1`, `window_seconds = 60` and
two requests at the same time `t = 0` (both inside one window), ZADD stores
both requests under the same member, so the second — the `(m+1)`-th request
within the window — is allowed rather than denied. -/
theorem c1_counterexample :
    (runRedisChecks 1 60 [0, 0] ⟨∅, 0⟩).1 = [false, false] ∧
      (runRedisChecks 1 60 [0, 0] ⟨∅, 0⟩).1 ≠ [false, true] := by
  have h1 : (runRedisChecks 1 60 [0, 0] ⟨∅, 0⟩).1 = [false, false] := by
    with_unfolding_all rfl
  exact ⟨h1, by rw [h1]; decide⟩

/-- C1 (amended): for every policy and key, `m+1` requests whose times
pairwise differ by less than the window give `m` allows followed by a deny —
on the memory path unconditionally, on the distributed path provided the
timestamps are pairwise distinct; and the concrete scenario
`max_requests = 3`, `window_seconds = 60`, requests at t = 0, 1, 2, 3, 61
gives allowed, allowed, allowed, denied, allowed on both paths. -/
theorem c1_sliding_window (m : ℕ) (w interval lc ttl0 : ℚ) (key : String)
    (ts : List ℚ) (tLast : ℚ)
    (hlen : ts.length = m)
    (hspan : ∀ ta ∈ ts ++ [tLast], ∀ tb ∈ ts ++ [tLast], ta - tb < w) :
    (runMemChecks m w interval key (ts ++ [tLast]) ⟨[], lc⟩).1 =
        List.replicate m false ++ [true] ∧
      ((ts ++ [tLast]).Nodup →
        (runRedisChecks m w (ts ++ [tLast]) ⟨∅, ttl0⟩).1 =
          List.replicate m false ++ [true]) ∧
      (runMemChecks 3 60 300 "rate_limit:A" [0, 1, 2, 3, 61] ⟨[], 0⟩).1 =
        [false, false, false, true, false] ∧
      (runRedisChecks 3 60 [0, 1, 2, 3, 61] ⟨∅, 0⟩).1 =
        [false, false, false, true, false] := by
  have hmemts : ∀ ta ∈ ts, ∀ tb ∈ ts, ta - tb < w := fun ta hta tb htb =>
    hspan ta (List.mem_append_left _ hta) tb (List.mem_append_left _ htb)
  have htlast : tLast ∈ ts ++ [tLast] :=
    List.mem_append_right _ (List.mem_singleton.mpr rfl)
  refine ⟨?_, ?_, by with_unfolding_all rfl, by with_unfolding_all rfl⟩
  · have hrun := runMemChecks_all_allowed m w interval key ts ⟨[], lc⟩ []
      (by simp [goodStore]) rfl
      (fun t' _ c hc => absurd hc (List.not_mem_nil c))
      hmemts (by simp [hlen])
    have hden : (checkMemoryLimit m w interval key tLast
        (runMemChecks m w interval key ts ⟨[], lc⟩).2).1 = true := by
      apply checkMemoryLimit_denies m w interval key tLast _ hrun.2.2
      · intro c hc
        rw [hrun.2.1] at hc
        simp only [List.nil_append] at hc
        exact hspan tLast htlast c (List.mem_append_left _ hc)
      · rw [hrun.2.1]
        simp [hlen]
    rw [runMemChecks_append]
    simp only [runMemChecks, hden, hrun.1, hlen]
  · intro hnd
    have hnd' := List.nodup_append.mp hnd
    have hrunR := runRedisChecks_all_allowed m w ts ⟨∅, ttl0⟩ ∅ rfl
      (fun t' _ c hc => absurd hc (Finset.not_mem_empty c))
      (fun t' _ hc => absurd hc (Finset.not_mem_empty t'))
      hmemts hnd'.1 (by simp [hlen])
    have hdenR : (checkRedisOnce m w tLast
        (runRedisChecks m w ts ⟨∅, ttl0⟩).2).1 = true := by
      apply checkRedisOnce_denies
      · intro c hc
        rw [hrunR.2.1] at hc
        simp only [Finset.empty_union, List.mem_toFinset] at hc
        exact hspan tLast htlast c (List.mem_append_left _ hc)
      · rw [hrunR.2.1]
        simp only [Finset.empty_union, List.mem_toFinset]
        intro hmem
        exact hnd'.2.2 hmem (List.mem_singleton.mpr rfl)
      · rw [hrunR.2.2]
        simp [hlen]
    rw [runRedisChecks_append]
    simp only [runRedisChecks, hdenR, hrunR.1, hlen]

/-- C1 witness: the amended theorem applied at `m = 2`, `w = 60`, requests
at t = 0, 1, 2. -/
theorem c1_sliding_window_witness :
    (runMemChecks 2 60 300 "k" ([0, 1] ++ [2]) ⟨[], 0⟩).1 =
        List.replicate 2 false ++ [true] ∧
      (runRedisChecks 2 60 ([0, 1] ++ [2]) ⟨∅, 0⟩).1 =
        List.replicate 2 false ++ [true] := by
  have h := c1_sliding_window 2 60 300 0 0 "k" [0, 1] 2 rfl
    (of_decide_eq_true (by with_unfolding_all rfl))
  exact ⟨h.1, h.2.1 (of_decide_eq_true (by with_unfolding_all rfl))⟩

/-- C2: under distributed evaluation the denied request is still recorded —
ZADD runs before ZCARD, so `now` is a member of the resulting set and the
returned count is the cardinality including it; under the memory fallback
the check denies exactly when the pruned log has already reached the limit,
and then leaves the key's log equal to its pruned pre-call value (no
append), appending `now` only on allow. -/
theorem c2_denied_request_recording (m : ℕ) (w interval now : ℚ)
    (key : String) (z : ZKey) (s : MemState) (hg : goodStore s.store) :
    (now ∈ (luaRateLimit (now - w) now (w + 10) z).2.entries ∧
      (luaRateLimit (now - w) now (w + 10) z).1 =
        (luaRateLimit (now - w) now (w + 10) z).2.entries.card) ∧
      ((checkMemoryLimit m w interval key now s).1 = true ↔
        m ≤ (pruneL now w (lookupD s.store key)).length) ∧
      ((checkMemoryLimit m w interval key now s).1 = true →
        lookupD (checkMemoryLimit m w interval key now s).2.store key =
          pruneL now w (lookupD s.store key)) ∧
      ((checkMemoryLimit m w interval key now s).1 = false →
        lookupD (checkMemoryLimit m w interval key now s).2.store key =
          pruneL now w (lookupD s.store key) ++ [now]) :=
  ⟨⟨Finset.mem_insert_self now _, rfl⟩,
    checkMemoryLimit_spec m w interval key now s hg⟩

/-- C2 witness: the memory-side decision rule at a concrete store. -/
theorem c2_denied_request_recording_witness :
    (checkMemoryLimit 1 60 300 "k" 10 ⟨[("k", [5])], 0⟩).1 = true ↔
      1 ≤ (pruneL 10 60 (lookupD [("k", [5])] "k")).length :=
  (c2_denied_request_recording 1 60 300 10 "k" ⟨∅, 0⟩ ⟨[("k", [5])], 0⟩
    (by unfold goodStore; decide)).2.1

/-- C9: after any sequence of memory-fallback checks on one key at
non-decreasing times, starting from an empty store, the stored timestamp
list for that key has length at most `max_requests` — bounded by the policy
limit, not by the number of requests seen. -/
theorem c9_memory_bounded_by_limit (m : ℕ) (w interval lc : ℚ) (key : String)
    (ts : List ℚ) (_hsort : ts.Chain' (fun a b => a ≤ b)) :
    (lookupD (runMemChecks m w interval key ts ⟨[], lc⟩).2.store key).length
      ≤ m :=
  lookupD_length_le
    (runMemChecks_lengths m w interval key ts ⟨[], lc⟩
      (fun p hp => absurd hp (List.not_mem_nil p))) key

/-- C9 witness: four checks against a limit of two. -/
theorem c9_memory_bounded_by_limit_witness :
    (lookupD (runMemChecks 2 60 300 "k" [0, 1, 2, 3] ⟨[], 0⟩).2.store
      ("k")).length ≤ 2 :=
  c9_memory_bounded_by_limit 2 60 300 0 "k" [0, 1, 2, 3]
    (List.chain'_cons.mpr ⟨by decide, List.chain'_cons.mpr ⟨by decide,
      List.chain'_cons.mpr ⟨by decide, List.chain'_singleton 3⟩⟩⟩)

/-- C10: a denied memory-fallback check only removes out-of-window entries:
the denied key's post-call log equals its pruned pre-call log, and every
other key is either untouched or pruned (when the amortized sweep fires);
no timestamp is appended to any key. -/
theorem c10_denied_check_frame (m : ℕ) (w interval : ℚ) (key : String)
    (now : ℚ) (s : MemState) (hg : goodStore s.store)
    (hden : (checkMemoryLimit m w interval key now s).1 = true) :
    lookupD (checkMemoryLimit m w interval key now s).2.store key =
        pruneL now w (lookupD s.store key) ∧
      ∀ k, k ≠ key →
        lookupD (checkMemoryLimit m w interval key now s).2.store k =
            lookupD s.store k ∨
          lookupD (checkMemoryLimit m w interval key now s).2.store k =
            pruneL now w (lookupD s.store k) :=
  ⟨(checkMemoryLimit_spec m w interval key now s hg).2.1 hden,
   fun k hk => checkMemoryLimit_frame m w interval key now s hg k hk⟩

/-- C10 witness: a denied check at a concrete two-key store. -/
theorem c10_denied_check_frame_witness :
    lookupD (checkMemoryLimit 1 60 300 "k" 20
        ⟨[("k", [10]), ("j", [5])], 0⟩).2.store ("k") =
      pruneL 20 60 (lookupD [("k", [10]), ("j", [5])] "k") :=
  (c10_denied_check_frame 1 60 300 "k" 20 ⟨[("k", [10]), ("j", [5])], 0⟩
    (by unfold goodStore; decide) (by with_unfolding_all rfl)).1

/-- C3, counterexample: the IP-only dependency passes the bare client IP as
`client_id`, so for an unauthenticated request from 203.0.113.7 the store
key is `rate_limit:203.0.113.7` — not the `rate_limit:ip:203.0.113.7` that
the claimed `"rate_limit:" + scope + ":" + identifier` composition would
produce. -/
theorem c3_counterexample :
    rateLimitKey (ipDepClientId none (some ("203.0.113.7"))) =
        "rate_limit:203.0.113.7" ∧
      rateLimitKey (ipDepClientId none (some ("203.0.113.7"))) ≠
        "rate_limit:ip:203.0.113.7" := by
  exact ⟨rfl, by decide⟩

/-- C3 (amended): keys from the user-aware dependency carry an explicit
scope segment (`user:` when authenticated, `ip:` otherwise), while the
IP-only dependency's key is `rate_limit:` followed directly by the resolved
client address, with no scope segment. -/
theorem c3_key_composition (uid : String) (ff host : Option String) :
    rateLimitKey (userDepClientId (some uid) ff host) =
        "rate_limit:user:" ++ uid ∧
      rateLimitKey (userDepClientId none ff host) =
        "rate_limit:ip:" ++ resolveClientIp ff host ∧
      rateLimitKey (ipDepClientId ff host) =
        "rate_limit:" ++ resolveClientIp ff host := by
  refine ⟨?_, ?_, rfl⟩
  · show ("rate_limit:" ++ ("user:" ++ uid)) = "rate_limit:user:" ++ uid
    rw [← String.append_assoc]
    rfl
  · show ("rate_limit:" ++ ("ip:" ++ resolveClientIp ff host)) =
      "rate_limit:ip:" ++ resolveClientIp ff host
    rw [← String.append_assoc]
    rfl

/-- C3 witness: the amended composition at a concrete user id and address. -/
theorem c3_key_composition_witness :
    rateLimitKey (userDepClientId (some ("alice")) none (some ("1.2.3.4"))) =
        "rate_limit:user:" ++ "alice" ∧
      rateLimitKey (ipDepClientId none (some ("1.2.3.4"))) =
        "rate_limit:" ++ resolveClientIp none (some ("1.2.3.4")) :=
  ⟨(c3_key_composition ("alice") none (some ("1.2.3.4"))).1,
   (c3_key_composition ("alice") none (some ("1.2.3.4"))).2.2⟩

/-- C4, counterexample: the Lua script's ZREMRANGEBYSCORE range
`[0, window_start]` is inclusive, so the boundary entry with score exactly
`now − w` is discarded, which the claimed strictly-older rule would retain:
with an entry at 0, `now = 60`, `w = 60` (so `window_start = 0`), the code
returns count 1 while the claimed discard rule yields count 2. -/
theorem c4_counterexample :
    (luaRateLimit 0 60 70 ⟨{0}, 0⟩).1 = 1 ∧
      (luaRateLimitSpec 0 60 70 ⟨{0}, 0⟩).1 = 2 ∧
      (luaRateLimit 0 60 70 ⟨{0}, 0⟩).1 ≠
        (luaRateLimitSpec 0 60 70 ⟨{0}, 0⟩).1 := by
  refine ⟨by decide, by decide, by decide⟩

/-- C4 (amended): one distributed evaluation atomically discards exactly
the entries with score in the inclusive range `[0, now − w]`, adds an entry
for `now`, returns the resulting cardinality, and sets the key's expiry to
`w + 10`; the caller is rejected exactly when the returned cardinality is
strictly greater than `max_requests`. -/
theorem c4_atomic_window_unit (m : ℕ) (w now : ℚ) (z : ZKey) :
    (∀ t : ℚ, t ∈ (luaRateLimit (now - w) now (w + 10) z).2.entries ↔
        (t = now ∨ (t ∈ z.entries ∧ ¬(0 ≤ t ∧ t ≤ now - w)))) ∧
      (luaRateLimit (now - w) now (w + 10) z).1 =
        (luaRateLimit (now - w) now (w + 10) z).2.entries.card ∧
      (luaRateLimit (now - w) now (w + 10) z).2.ttl = w + 10 ∧
      ((checkRedisOnce m w now z).1 = true ↔
        m < (luaRateLimit (now - w) now (w + 10) z).1) ∧
      (checkRedisOnce m w now z).2 = (luaRateLimit (now - w) now (w + 10) z).2 := by
  refine ⟨fun t => ?_, rfl, rfl, ?_, rfl⟩
  · simp [luaRateLimit, zremrangebyscore, Finset.mem_insert, Finset.mem_filter]
  · simp [checkRedisOnce]

/-- C4 witness: the amended atomic unit at a concrete set — membership at
the boundary, count, and expiry. -/
theorem c4_atomic_window_unit_witness :
    ((0 : ℚ) ∈ (luaRateLimit (60 - 60) 60 (60 + 10) ⟨{0}, 0⟩).2.entries ↔
        ((0 : ℚ) = 60 ∨ ((0 : ℚ) ∈ ({0} : Finset ℚ) ∧
          ¬((0 : ℚ) ≤ 0 ∧ (0 : ℚ) ≤ (60 : ℚ) - 60)))) ∧
      (luaRateLimit ((60 : ℚ) - 60) 60 (60 + 10) ⟨{0}, 0⟩).2.ttl =
        (60 : ℚ) + 10 :=
  ⟨(c4_atomic_window_unit 1 60 60 ⟨{0}, 0⟩).1 0,
   (c4_atomic_window_unit 1 60 60 ⟨{0}, 0⟩).2.2.1⟩

/-- C8: the request-level dependency raises the 429 rejection iff the limit
check reports limited; the rejection always carries
`Retry-After = window_seconds` regardless of the time remaining; and for
every distributed outcome — no client, a returned count, or a raised
exception — the evaluation ends in `ok` or in that single 429 error, never
any other fault. -/
theorem c8_dependency_total (m : ℕ) (w interval now : ℚ) (clientIp : String)
    (o : RedisOutcome) (s : MemState) :
    ((rateLimitDependency m w interval clientIp now o s).1 =
        Except.error ⟨429, "Rate limit exceeded. Please try again later.", w⟩ ↔
      (checkRedisLimitDispatch m w interval (rateLimitKey clientIp) now o
          s).1 = true) ∧
      ((rateLimitDependency m w interval clientIp now o s).1 =
          Except.ok () ∨
        (rateLimitDependency m w interval clientIp now o s).1 =
          Except.error
            ⟨429, "Rate limit exceeded. Please try again later.", w⟩) := by
  unfold rateLimitDependency
  by_cases hc : (checkRedisLimitDispatch m w interval (rateLimitKey clientIp)
      now o s).1 = true
  · simp [hc]
  · simp [hc]

/-- C8 witness: a raised distributed error still ends in `ok` or the single
429 rejection. -/
theorem c8_dependency_total_witness :
    (rateLimitDependency 1 60 300 ("1.2.3.4") 0 RedisOutcome.err
        ⟨[], 0⟩).1 = Except.ok () ∨
      (rateLimitDependency 1 60 300 ("1.2.3.4") 0 RedisOutcome.err
        ⟨[], 0⟩).1 =
        Except.error
          ⟨429, "Rate limit exceeded. Please try again later.", 60⟩ :=
  (c8_dependency_total 1 60 300 0 ("1.2.3.4") RedisOutcome.err ⟨[], 0⟩).2

/-! ### Breaker-trace lemmas -/

theorem checkAttempts_time_lb (es : List REvent) (tmin : ℚ) (s : Breaker)
    (h : validFromB tmin s es = true) :
    ∀ p ∈ checkAttempts s es, tmin ≤ p.1 := by
  induction es generalizing tmin s with
  | nil => intro p hp; simp [checkAttempts] at hp
  | cons e es ih =>
    intro p hp
    cases e with
    | check t f =>
      rw [validFromB, Bool.and_eq_true, Bool.and_eq_true] at h
      have h1 : tmin ≤ t := of_decide_eq_true h.1.1
      rw [checkAttempts] at hp
      rcases List.mem_append.mp hp with hp | hp
      · have hpt : p = (t, s.healthy) := by simpa using hp
        rw [hpt]
        exact h1
      · exact le_trans h1 (ih t (stepEvent s (REvent.check t f)) h.2 p hp)
    | recover t =>
      rw [validFromB, Bool.and_eq_true, Bool.and_eq_true] at h
      have h1 : tmin ≤ t := of_decide_eq_true h.1.1
      rw [checkAttempts] at hp
      simp only [List.nil_append] at hp
      exact le_trans h1 (ih t (stepEvent s (REvent.recover t)) h.2 p hp)

theorem breaker_no_attempt_before_recovery (t0 : ℚ) (es : List REvent)
    (tmin : ℚ)
    (h : validFromB tmin ⟨false, some (t0 + recoveryDelay)⟩ es = true) :
    ∀ p ∈ checkAttempts ⟨false, some (t0 + recoveryDelay)⟩ es,
      p.1 < t0 + recoveryDelay → p.2 = false := by
  induction es generalizing tmin with
  | nil => intro p hp; simp [checkAttempts] at hp
  | cons e es ih =>
    intro p hp hlt
    cases e with
    | check t f =>
      rw [validFromB, Bool.and_eq_true, Bool.and_eq_true] at h
      have hstep : stepEvent ⟨false, some (t0 + recoveryDelay)⟩
          (REvent.check t f) = ⟨false, some (t0 + recoveryDelay)⟩ := by
        simp [stepEvent]
      rw [checkAttempts, hstep] at hp
      rcases List.mem_append.mp hp with hp | hp
      · have hpt : p = (t, false) := by simpa using hp
        rw [hpt]
      · have h2 := h.2
        rw [hstep] at h2
        exact ih t h2 p hp hlt
    | recover t =>
      rw [validFromB, Bool.and_eq_true, Bool.and_eq_true] at h
      have ht' : t = t0 + recoveryDelay := by
        have hs := of_decide_eq_true h.1.2
        simpa using hs.symm
      rw [checkAttempts] at hp
      simp only [List.nil_append] at hp
      have hlb := checkAttempts_time_lb es t
        (stepEvent ⟨false, some (t0 + recoveryDelay)⟩ (REvent.recover t))
        h.2 p hp
      exact absurd hlt (not_lt.mpr (ht' ▸ hlb))

/-- C5: after a distributed failure trips the breaker at time `t0`
(unhealthy, recovery pending at `t0 + 30`), every check in any well-formed
subsequent trace that starts before `t0 + 30` runs while unhealthy and so
never attempts a distributed call; a failing check from a healthy state is
exactly what produces that state; the recovery firing resets the health
flag; and the next check from the reset state attempts the distributed
path. -/
theorem c5_recovery_window (t0 tmin : ℚ) (es : List REvent)
    (h : validFromB tmin ⟨false, some (t0 + recoveryDelay)⟩ es = true) :
    (∀ p ∈ checkAttempts ⟨false, some (t0 + recoveryDelay)⟩ es,
        p.1 < t0 + recoveryDelay → p.2 = false) ∧
      (∀ (pnd : Option ℚ) (t : ℚ) (fl : Bool),
        stepEvent ⟨true, pnd⟩ (REvent.check t true) =
            ⟨false, some (t + recoveryDelay)⟩ ∧
          stepEvent ⟨false, some (t0 + recoveryDelay)⟩ (REvent.recover t) =
            ⟨true, none⟩ ∧
          checkAttempts ⟨true, none⟩ [REvent.check t fl] = [(t, true)]) :=
  ⟨breaker_no_attempt_before_recovery t0 es tmin h,
   fun pnd t fl => ⟨by simp [stepEvent], rfl, by simp [checkAttempts]⟩⟩

/-- C5 witness: the concrete trace `traceEx` after a failure at `t0 = 0` —
the check at t = 29 (before recovery at t = 30) does not attempt the
distributed path. -/
theorem c5_recovery_window_witness :
    ((29 : ℚ), false) ∈
        checkAttempts ⟨false, some ((0 : ℚ) + recoveryDelay)⟩ traceEx ∧
      false = false :=
  ⟨of_decide_eq_true (by with_unfolding_all rfl),
   (c5_recovery_window 0 0 traceEx (by with_unfolding_all rfl)).1 (29, false)
     (of_decide_eq_true (by with_unfolding_all rfl))
     (of_decide_eq_true (by with_unfolding_all rfl))⟩

/-- C6: (a) once a key's every entry is older than the window, a firing
sweep deletes the key entirely; (b) right after a sweep fires, another call
within the 300-second interval does not sweep again; (c) the sweep prunes
every key to the current window and keeps exactly the keys whose pruned log
is nonempty. -/
theorem c6_cleanup_sweep (now now2 w interval : ℚ) (k : String)
    (store : List (String × List ℚ)) (s : MemState) :
    ((∀ p ∈ store, p.1 = k → ∀ t ∈ p.2, now - t > w) →
        hasKeyB (cleanupStore now w store) k = false) ∧
      (now - s.lastCleanup > interval → now2 - now ≤ interval →
        cleanupMemoryStore w interval now2
            (cleanupMemoryStore w interval now s) =
          cleanupMemoryStore w interval now s) ∧
      (∀ p ∈ cleanupStore now w store,
        p.2 ≠ [] ∧ ∃ l0, (p.1, l0) ∈ store ∧ p.2 = pruneL now w l0) := by
  refine ⟨fun h => ?_, fun h1 h2 => ?_, fun p hp => mem_cleanupStore hp⟩
  · rw [hasKeyB, List.any_eq_false]
    intro p hp hb
    have hpk : p.1 = k := of_decide_eq_true hb
    rcases mem_cleanupStore hp with ⟨hne, l0, hl0, hpr⟩
    have hstale : ∀ t ∈ l0, now - t > w := h (p.1, l0) hl0 hpk
    have hnil : pruneL now w l0 = [] := by
      rw [pruneL, List.filter_eq_nil_iff]
      intro t ht hdec
      exact absurd (of_decide_eq_true hdec) (not_lt.mpr (le_of_lt (hstale t ht)))
    exact hne (hpr.trans hnil)
  · have hdue : cleanupMemoryStore w interval now s =
        ⟨cleanupStore now w s.store, now⟩ := by
      unfold cleanupMemoryStore
      rw [if_pos h1]
    rw [hdue]
    unfold cleanupMemoryStore
    rw [if_neg (not_lt.mpr h2)]

/-- C6 witness: a key whose single entry at t = 0 is 100 seconds old under
a 60-second window is deleted by the sweep; a sweep at t = 100 blocks a
second sweep at t = 250. -/
theorem c6_cleanup_sweep_witness :
    hasKeyB (cleanupStore 100 60 [("k", [0])]) "k" = false ∧
      cleanupMemoryStore 60 300 400
          (cleanupMemoryStore 60 300 100 ⟨[("k", [0])], (-250 : ℚ)⟩) =
        cleanupMemoryStore 60 300 100 ⟨[("k", [0])], (-250 : ℚ)⟩ :=
  ⟨(c6_cleanup_sweep 100 400 60 300 "k" [("k", [0])]
      ⟨[("k", [0])], (-250 : ℚ)⟩).1
      (of_decide_eq_true (by with_unfolding_all rfl)),
   (c6_cleanup_sweep 100 400 60 300 "k" [("k", [0])]
      ⟨[("k", [0])], (-250 : ℚ)⟩).2.1
      (of_decide_eq_true (by with_unfolding_all rfl))
      (of_decide_eq_true (by with_unfolding_all rfl))⟩

/-- C7: with no `REDIS_URL`, the first attempt to obtain the client stores
the `False` sentinel, marks the system unhealthy and schedules no recovery;
that first evaluation and every evaluation from any unhealthy state is
served by the memory fallback, and the globals never change again — so the
process stays in fallback-only mode for its whole life. -/
theorem c7_missing_url_permanent_fallback (connectOk : Bool) (m : ℕ)
    (w interval : ℚ) (e : EvalIn) (es : List EvalIn) (g : RedisGlobal)
    (s : MemState) :
    getRedisClient false connectOk ⟨RClient.unset, true, false⟩ =
        (none, ⟨RClient.failed, false, false⟩) ∧
      (evalOnce false m w interval e ⟨RClient.unset, true, false⟩ s).2.1 =
        ⟨RClient.failed, false, false⟩ ∧
      (evalOnce false m w interval e ⟨RClient.unset, true, false⟩ s).2.2.2 =
        true ∧
      (g.healthy = false →
        (runEvals false m w interval es g s).1.all (fun b => b) = true ∧
          (runEvals false m w interval es g s).2.1 = g) := by
  refine ⟨rfl, rfl, rfl, fun hg => ?_⟩
  induction es generalizing s with
  | nil => simp [runEvals]
  | cons e' es ih =>
    have hgc : getRedisClient false e'.connectOk g = (none, g) := by
      unfold getRedisClient
      rw [if_neg (by rw [hg]; exact Bool.false_ne_true)]
    have heval : evalOnce false m w interval e' g s =
        ((checkMemoryLimit m w interval e'.key e'.now s).1, g,
         (checkMemoryLimit m w interval e'.key e'.now s).2, true) := by
      unfold evalOnce
      rw [hgc]
    have hrest := ih (checkMemoryLimit m w interval e'.key e'.now s).2
    simp [runEvals, heval, List.all_cons, hrest.1, hrest.2]

/-- C7 witness: two evaluations from the permanently-unhealthy state are
both served by memory and leave the globals unchanged. -/
theorem c7_missing_url_permanent_fallback_witness :
    (runEvals false 1 60 300 [⟨true, true, 0, "k", 1⟩, ⟨true, false, 5, "k", 2⟩]
        ⟨RClient.failed, false, false⟩ ⟨[], 0⟩).1.all (fun b => b) = true ∧
      (runEvals false 1 60 300 [⟨true, true, 0, "k", 1⟩, ⟨true, false, 5, "k", 2⟩]
        ⟨RClient.failed, false, false⟩ ⟨[], 0⟩).2.1 =
        ⟨RClient.failed, false, false⟩ :=
  (c7_missing_url_permanent_fallback true 1 60 300 ⟨true, true, 0, "k", 1⟩
    [⟨true, true, 0, "k", 1⟩, ⟨true, false, 5, "k", 2⟩]
    ⟨RClient.failed, false, false⟩ ⟨[], 0⟩).2.2.2 rfl

end Rapster
